import Mathlib

/-!
Shallow embedding of the BibBuilder repository (package `bibbuilder`) used to
check the natural-language specification against the code.

The embedding covers:
* the entry/store data model of `BetterBibDatabase` (`bib_utils.py`),
* merging and exclusion cleanup (`scripts/merge_bib_files.py`),
* record-ID derivation and collision resolution (`BetterBibDatabase.format_id`,
  `iter_letters`),
* journal-name abbreviation (`journal_abbreviations.py`),
* DOI extraction from PDF text (`pdf2bib` and the regex list `all_doi_res`).

A `BetterBibDatabase` is modelled by its `entries` list (the only state the
claims depend on); every derived view (`files`, `dois`, `ids`, `entries_dict`)
is recomputed from that list, exactly as the Python properties are.
-/

namespace BibBuilder

/-- A BibTex entry, i.e. the Python dict produced by bibtexparser.  The
mandatory `"ID"` and `"ENTRYTYPE"` keys (checked by `_validate_new_entry`) are
distinguished structure fields; every other key/value pair lives in a finite
map, because Python dict equality is extensional. -/
structure Entry where
  ID : String
  ENTRYTYPE : String
  fields : Finmap fun _ : String => String
deriving DecidableEq

/-- Model of `BetterBibDatabase.files`: the value of the `'file'` key of every entry
that has one, in entry order. -/
def files (entries : List Entry) : List String :=
  entries.filterMap fun e => e.fields.lookup "file"

/-- Model of `BetterBibDatabase.dois`: the value of the `'doi'` key of every entry that
has one, in entry order. -/
def dois (entries : List Entry) : List String :=
  entries.filterMap fun e => e.fields.lookup "doi"

/-- Model of `BetterBibDatabase.ids`: the `'ID'` of every entry, in entry order. -/
def ids (entries : List Entry) : List String :=
  entries.map Entry.ID

/-- Model of `BetterBibDatabase.add_entry`: appends the entry to the `entries` list.
(The `_validate_new_entry` check — presence of `'ID'` and `'ENTRYTYPE'` — holds
by construction in the typed model.) -/
def add_entry (entries : List Entry) (e : Entry) : List Entry :=
  entries ++ [e]

/-- Model of `BetterBibDatabase.replace_entry_by_key`: replaces the first entry whose
`'ID'` equals `key` (`_find_entry_index_by_key` returns the first such index);
`none` models the `KeyError` raised when no entry has that key. -/
def replace_entry_by_key : List Entry → String → Entry → Option (List Entry)
  | [], _, _ => none
  | e :: rest, key, x =>
    if e.ID = key then some (x :: rest)
    else (replace_entry_by_key rest key x).map (e :: ·)

/-- Model of `BetterBibDatabase.remove_entry_by_key`: removes the first entry whose
`'ID'` equals `key`; `none` models the `KeyError` raised when no entry has
that key. -/
def remove_entry_by_key : List Entry → String → Option (List Entry)
  | [], _ => none
  | e :: rest, key =>
    if e.ID = key then some rest
    else (remove_entry_by_key rest key).map (e :: ·)

/-- One assignment `d[key] = v` of a Python dict build: if the key is present
its value is replaced in place, otherwise the pair is appended (Python dicts
keep keys in first-insertion order). -/
def pydict_insert : List (String × Entry) → String → Entry → List (String × Entry)
  | [], key, v => [(key, v)]
  | (k, w) :: rest, key, v =>
    if k = key then (k, v) :: rest else (k, w) :: pydict_insert rest key v

/-- Python dict lookup `d[key]` on the association-list model (keys are unique
by construction of `pydict_insert`). -/
def pydict_lookup (d : List (String × Entry)) (key : String) : Option Entry :=
  (d.find? fun p => p.1 = key).map Prod.snd

/-- Model of `BetterBibDatabase.entries_dict`: the dict comprehension
`{entry['ID']: entry for entry in self.entries}`, rebuilt from the entries list
on every access (for a duplicated ID the later entry wins, as in Python). -/
def entries_dict (entries : List Entry) : List (String × Entry) :=
  entries.foldl (fun d e => pydict_insert d e.ID e) []

/-- The keys of `entries_dict`, in Python dict order (first occurrence). -/
def dict_keys (entries : List Entry) : List String :=
  (entries_dict entries).map Prod.fst

/-- Model of `bib_dat[key]` for a string key: `entries_dict[key]`. -/
def dict_get (entries : List Entry) (key : String) : Option Entry :=
  pydict_lookup (entries_dict entries) key

/-- Model of `_are_entries_equivalent` from `merge_bib_files.py`: plain `==` on the two
entry dicts; no fuzzy matching. -/
def are_entries_equivalent (e1 e2 : Entry) : Bool :=
  e1 == e2

/-- Model of `_conflict_resolve_first`: keep the base entry, nothing is done. -/
def conflict_resolve_first (base : List Entry) (_newStore : List Entry) (_key : String) :
    List Entry :=
  base

/-- The call `bib_dat.replace_entry_by_key(conflicting_key, ...)` as used by
`_conflict_resolve_last`; the fallback arm is unreachable at the call site
(the conflicting key is present in `base`, so no `KeyError` is raised). -/
def replace_or_keep (base : List Entry) (key : String) (x : Entry) : List Entry :=
  match replace_entry_by_key base key x with
  | none => base
  | some base' => base'

/-- Model of `_conflict_resolve_last`: replace the base entry for the conflicting key by
`new_bib_dat[conflicting_key]`.  The `none` arm is unreachable at the call
site (the key is a dict key of `newStore`). -/
def conflict_resolve_last (base newStore : List Entry) (key : String) : List Entry :=
  match dict_get newStore key with
  | none => base
  | some e => replace_or_keep base key e

/-- The body of the inner loop of `merge_bib_files`, for one key of the
auxiliary store's `entries_dict`.  A key absent from base is appended even if
excluded; a conflicting non-equivalent key is resolved unless it is excluded
and the run is non-interactive.  The `none` fallback of `dict_get newStore` is
unreachable because `key` ranges over `dict_keys newStore`. -/
def merge_step (resolve : List Entry → List Entry → String → List Entry)
    (excluded : List String) (exclude_interactive : Bool)
    (newStore : List Entry) (base : List Entry) (key : String) : List Entry :=
  if key ∉ ids base then
    match dict_get newStore key with
    | some e => base ++ [e]
    | none => base
  else
    match dict_get base key, dict_get newStore key with
    | some eb, some en =>
      if are_entries_equivalent eb en then base
      else if key ∉ excluded ∨ exclude_interactive = true then resolve base newStore key
      else base
    | _, _ => base

/-- The processing of one auxiliary store by `merge_bib_files`: iterate over
the keys of its `entries_dict` (computed once; the auxiliary store is not
mutated by the non-interactive conflict resolutions modelled here). -/
def merge_one_file (resolve : List Entry → List Entry → String → List Entry)
    (excluded : List String) (exclude_interactive : Bool)
    (base newStore : List Entry) : List Entry :=
  (dict_keys newStore).foldl (merge_step resolve excluded exclude_interactive newStore) base

/-- Model of `merge_bib_files`: fold the auxiliary stores into the base store.  File
loading (`init_bib_database` with `no_backup=True, update_home=False`) is
replaced by passing each auxiliary store's entry list directly; `excluded` is
the key set of the `excluded_keys` dict (the values, the originating exclude
file names, are only used for interactive messages). -/
def merge_bib_files (resolve : List Entry → List Entry → String → List Entry)
    (base : List Entry) (extra : List (List Entry))
    (excluded : List String) (exclude_interactive : Bool) : List Entry :=
  extra.foldl (fun b aux => merge_one_file resolve excluded exclude_interactive b aux) base

/-- The loop of `remove_excluded_bib_keys` with `ask_to_remove=False`: the key
snapshot `base_bib.ids` is taken once, then each excluded key is removed from
the current entries.  A failing removal (`KeyError`) propagates as `none`. -/
def remove_excluded_go (excluded : List String) :
    List String → List Entry → Option (List Entry)
  | [], entries => some entries
  | key :: rest, entries =>
    if key ∈ excluded then
      (remove_entry_by_key entries key).bind (remove_excluded_go excluded rest)
    else remove_excluded_go excluded rest entries

/-- Model of `remove_excluded_bib_keys` with `ask_to_remove=False` (non-interactive
exclusion cleanup). -/
def remove_excluded_bib_keys (entries : List Entry) (excluded : List String) :
    Option (List Entry) :=
  remove_excluded_go excluded (ids entries) entries

/-! Record-ID derivation and collision resolution (`BetterBibDatabase.format_id`,
`iter_letters`). -/

/-- Model of `iter_letters`: the characters from `start` to `stop` inclusive, by code
point (`chr(i) for i in range(ord(start), ord(stop) + 1)`). -/
def iter_letters (start stop : Char) : List Char :=
  (List.range' start.toNat (stop.toNat + 1 - start.toNat)).map Char.ofNat

/-- The collision-resolution tail of `format_id` (after the base record ID has
been derived): return the base ID if it is free, otherwise the first of the
suffixes `A`..`Z` that makes it free; `none` models the `RuntimeError` raised
when the base ID and all 26 suffixed variants are taken. -/
def format_id_unique (record_id : String) (all_ids : List String) : Option String :=
  if record_id ∈ all_ids then
    (iter_letters 'A' 'Z').findSome? fun letter =>
      let new_id := record_id.push letter
      if new_id ∈ all_ids then none else some new_id
  else some record_id

/-- Python `str.split` with a non-empty separator `c0 :: sepRest`, scanning
left to right over non-overlapping occurrences (empty pieces are kept).  The
second argument counts separator characters still to be consumed, which keeps
the recursion structural. -/
def split_go (c0 : Char) (sepRest : List Char) : List Char → Nat → List (List Char)
  | [], _ => [[]]
  | _c :: rest, n + 1 => split_go c0 sepRest rest n
  | c :: rest, 0 =>
    if c = c0 ∧ sepRest.isPrefixOf rest then
      [] :: split_go c0 sepRest rest sepRest.length
    else
      match split_go c0 sepRest rest 0 with
      | [] => [[c]]
      | piece :: pieces => (c :: piece) :: pieces

/-- Python `str.split` with separator `c0 :: sepRest`. -/
def split_on_sep (c0 : Char) (sepRest : List Char) (cs : List Char) : List (List Char) :=
  split_go c0 sepRest cs 0

/-- The name components produced by splitting a single author's name. -/
structure SplitName where
  first : List String
  last : List String

/-- Modelled from the spec: `bibtexparser.customization.splitname` (library
code, not in `src/`) splits one author name into components (last, first,
suffix); the spec uses only the `last` and `first` lists.  A name of the form
`"Last, First"` splits at the comma, otherwise the final space-separated word
is the last name and the preceding words are the first name. -/
def splitname (name : String) : SplitName :=
  match split_on_sep ',' [] name.data with
  | [only] =>
    let ws := (split_on_sep ' ' [] only).filter (· ≠ [])
    { first := (ws.dropLast).map (fun w => String.mk w)
      last := match ws.getLast? with
              | some w => [String.mk w]
              | none => [] }
  | beforeComma :: afterComma =>
    { first := ((split_on_sep ' ' [] afterComma.flatten).filter (· ≠ [])).map
        (fun w => String.mk w)
      last := ((split_on_sep ' ' [] beforeComma).filter (· ≠ [])).map (fun w => String.mk w) }
  | [] => { first := [], last := [] }

/-- Model of `record['year'][-2:]`: the last two characters of the year string (the
whole string when it is shorter). -/
def year_last_two (year : String) : String :=
  String.mk (year.data.drop (year.data.length - 2))

/-- Modelled from the spec: the decomposition table of
`unicodedata.normalize('NFD', ...)` (Python standard library, not in `src/`),
restricted to a sample of precomposed Latin letters; characters outside the
table decompose to themselves.  Each combining mark produced lies in the
combining-diacritics block U+0300–U+036F. -/
def nfd_decompose_char (c : Char) : List Char :=
  if c = 'é' then ['e', Char.ofNat 0x301]
  else if c = 'è' then ['e', Char.ofNat 0x300]
  else if c = 'ü' then ['u', Char.ofNat 0x308]
  else if c = 'ñ' then ['n', Char.ofNat 0x303]
  else if c = 'Å' then ['A', Char.ofNat 0x30A]
  else if c = 'ö' then ['o', Char.ofNat 0x308]
  else [c]

/-- Modelled from the spec: `unicodedata.category(c) == 'Mn'` for the
characters produced by `nfd_decompose_char` — the combining-diacritics block. -/
def is_combining_mark (c : Char) : Bool :=
  0x300 ≤ c.toNat && c.toNat ≤ 0x36F

/-- Step one of the ID cleanup: NFD-decompose and drop combining marks. -/
def strip_accents (cs : List Char) : List Char :=
  (cs.flatMap nfd_decompose_char).filter fun c => !is_combining_mark c

/-- Step two: `encode('ascii', 'ignore')` — drop every non-ASCII character. -/
def ascii_ignore (cs : List Char) : List Char :=
  cs.filter fun c => c.toNat ≤ 127

/-- Step three: `re.sub('\\[a-zA-Z]+', '', ...)` — drop every backslash that
is followed by at least one ASCII letter together with the letter run; a
backslash not followed by a letter is left in place.  The Boolean flag records
that a command's letter run is currently being consumed. -/
def remove_latex_go : List Char → Bool → List Char
  | [], _ => []
  | c :: rest, inRun =>
    if inRun && c.isAlpha then remove_latex_go rest true
    else if c = '\\' && (rest.headD ' ').isAlpha then remove_latex_go rest true
    else c :: remove_latex_go rest false

/-- Step three as a whole-list operation. -/
def remove_latex_commands (cs : List Char) : List Char :=
  remove_latex_go cs false

/-- Python word characters for ASCII input: `[a-zA-Z0-9_]` (the preceding
`ascii_ignore` step guarantees the string is ASCII at this point). -/
def is_word_char (c : Char) : Bool :=
  c.isAlphanum || c = '_'

/-- Step four: `re.sub('[^\w\-]', '', ...)` — keep only word characters and
hyphens. -/
def remove_non_word (cs : List Char) : List Char :=
  cs.filter fun c => is_word_char c || c = '-'

/-- The cleanup pipeline applied by `format_id` to the raw record ID, in
source order: strip accents, drop non-ASCII, drop backslash commands, drop
non-word non-hyphen characters. -/
def clean_record_id (s : String) : String :=
  String.mk (remove_non_word (remove_latex_commands (ascii_ignore (strip_accents s.data))))

/-- The base-key derivation of `format_id` from the record's `'author'` and
`'year'` fields: first author of the `' and '`-joined list, then
`last-name ++ first-initial ++ last-two-year-digits`, then the cleanup
pipeline.  `none` models the `IndexError` raised when the split name has no
last component or no first name (`first_author['first'][0][0]`). -/
def format_id_base (author year : String) : Option String :=
  let first_author := (split_on_sep ' ' "and ".data author.data).headD []
  let parts := splitname (String.mk first_author)
  match parts.last.head?, parts.first.head? with
  | some lastName, some firstName =>
    match firstName.data.head? with
    | some initial =>
      some (clean_record_id (lastName ++ String.mk [initial] ++ year_last_two year))
    | none => none
  | _, _ => none

/-- Model of `BetterBibDatabase.format_id`: derive the base record ID, then make it
unique among `all_ids` (the database's current `ids`). -/
def format_id (author year : String) (all_ids : List String) : Option String :=
  (format_id_base author year).bind fun base => format_id_unique base all_ids

/-! Journal abbreviation (`journal_abbreviations.py`). -/

/-- The static journal name → abbreviation table `abbrev_dict`. -/
def abbrev_list : List (String × String) :=
  [("Aerosol Science and Technology", "Aerosol Sci. Technol."),
   ("American Journal of Physical Anthropology", "Am. J. Phys. Anthropol."),
   ("Applied Optics", "Appl. Opt."),
   ("Atmospheric Chemistry and Physics", "Atmos. Chem. Phys."),
   ("Atmospheric Chemistry and Physics Discussions", "Atmos. Chem. Phys. Discuss."),
   ("Atmospheric Environment", "Atmos. Environ."),
   ("Atmospheric Measurement Techniques", "Atmos. Meas. Tech."),
   ("Atmospheric Measurement Techniques Discussions", "Atmos. Meas. Tech. Discuss."),
   ("Atmospheric Research", "Atmos. Res."),
   ("Chemical Reviews", "Chem. Rev."),
   ("Climatic Change", "Clim. Change"),
   ("Earth-Science Reviews", "Earth Sci. Rev."),
   ("Environmental Pollution", "Environ. Pollut."),
   ("Environmental Science \x7b\\&\x7d Technology", "Environ. Sci. Technol."),
   ("Faraday Discussions", "Faraday Discuss."),
   ("Geophysical Research Letters", "Geophys. Res. Lett."),
   ("Geoscientific Model Development", "Geosci. Model Dev."),
   ("Geoscientific Model Development Discussions", "Geosci. Model Dev. Discuss."),
   ("Journal of Applied Meteorology and Climatology", "J. Appl. Meterol. Climatol."),
   ("Journal of Chemical Education", "J. Chem. Educ."),
   ("Journal of Chemical Physics", "J. Chem. Phys"),
   ("Journal of Geophysical Research: Atmospheres", "J. Geophys. Res. Atmos."),
   ("Journal of Physical Chemistry A", "J. Phys. Chem. A"),
   ("Journal of Quantitative Spectroscopy and Radiative Transfer",
    "J. Quant. Spectrosc. Radiat. Transfer"),
   ("Monthly Weather Review", "Mon. Weather Rev."),
   ("Nature", "Nature"),
   ("Nature Chemistry", "Nat. Chem"),
   ("Nature Climate Change", "Nat. Clim. Change"),
   ("Nature Communications", "Nat. Commun."),
   ("Nature Geoscience", "Nat. Geosci."),
   ("Physica D: Nonlinear Phenomena", "Physica D"),
   ("Plant and Soil", "Plant Soil"),
   ("Proceedings of the National Academy of Sciences", "PNAS"),
   ("Proceedings of the \x7bIEEE\x7d", "Proc. IEEE"),
   ("Remote Sensing of Environment", "Remote Sens. Environ."),
   ("Science", "Science"),
   ("\x7bIEEE\x7d Transactions on Geoscience and Remote Sensing",
    "IEEE Trans. Geosci. Remote Sens."),
   ("\x7bPLoS\x7d Biology", "PLoS Biol.")]

/-- Python whitespace characters of the regex class `\s` (ASCII fragment; the
inputs of interest are ASCII). -/
def isPySpace (c : Char) : Bool :=
  c = ' ' || c = '\t' || c = '\n' || c = '\r' || c = '\x0b' || c = '\x0c'

/-- The substitution `re.sub('The\s?', '', journal_name)` of
`abbreviate_journal`: every non-overlapping occurrence of `The`, together with
one following whitespace character when present, is removed — wherever it
occurs in the string, not only at the start.  The counter holds matched
characters still to be consumed, keeping the recursion structural. -/
def sub_the_go : List Char → Nat → List Char
  | [], _ => []
  | _c :: rest, n + 1 => sub_the_go rest n
  | c :: rest, 0 =>
    if c = 'T' ∧ ['h', 'e'].isPrefixOf rest then
      if isPySpace ((rest.drop 2).headD 'x') then sub_the_go rest 3
      else sub_the_go rest 2
    else
      c :: sub_the_go rest 0

/-- String wrapper for `sub_the_go`. -/
def sub_the (s : String) : String :=
  String.mk (sub_the_go s.data 0)

/-- The table lookup `journal_name in abbrev_dict` / `abbrev_dict[...]` (the
table's keys are pairwise distinct, so `find?` is the dict lookup). -/
def abbrev_lookup (name : String) : Option String :=
  (abbrev_list.find? fun p => p.1 = name).map Prod.snd

/-- Model of `abbreviate_journal`: remove `The` (plus one optional trailing whitespace
character) everywhere, look the result up in the table, and fall back to the
stripped name when the lookup misses. -/
def abbreviate_journal (journal_name : String) : String :=
  match abbrev_lookup (sub_the journal_name) with
  | some ab => ab
  | none => sub_the journal_name

/-! DOI extraction (`pdf2bib` and the regex strategy list `all_doi_res`).
Each Python regex is embedded as a matcher that attempts a match at one text
position; `re.search` semantics (leftmost successful position) is the scanner
`search_go`.  A matcher receives the characters before the position in
reverse order (for the lookbehinds) and the characters from the position on. -/

/-- A pattern strategy: given the reversed prefix before the current position
and the text from the position on, return the matched characters, if any. -/
def Matcher := List Char → List Char → Option (List Char)

/-- The shared core `10.[\d\.]+/` matched at the current position: literal
`10`, one arbitrary character other than newline (the unescaped `.`), a
non-empty maximal run of `[\d.]`, then `/`.  The run must be maximal: a
shorter run would be followed by a `[\d.]` character, never by `/`, so greedy
backtracking cannot produce one. -/
def match_doi_head : List Char → Option (List Char × List Char)
  | '1' :: '0' :: c :: rest =>
    if c = '\n' then none
    else
      let run := rest.takeWhile fun d => d.isDigit || d = '.'
      match rest.dropWhile fun d => d.isDigit || d = '.' with
      | '/' :: rest2 =>
        if run.isEmpty then none
        else some ('1' :: '0' :: c :: (run ++ ['/']), rest2)
      | _ => none
  | _ => none

/-- The suffix `[^\s]+`: a non-empty maximal run of non-whitespace (greedy,
with no constraint after it). -/
def match_tail_greedy (cs : List Char) : Option (List Char) :=
  let run := cs.takeWhile fun c => !isPySpace c
  if run.isEmpty then none else some run

/-- The lookahead `(?=(\.\s|,))`: the remaining text starts with a period
followed by whitespace, or with a comma. -/
def punct_lookahead : List Char → Bool
  | '.' :: c :: _ => isPySpace c
  | ',' :: _ => true
  | _ => false

/-- Greedy backtracking for `[^\s]+(?=(\.\s|,))`: the largest `k` between 1
and the bound such that the lookahead holds after `k` characters of the run. -/
def greatest_punct_k (run rest : List Char) : Nat → Option Nat
  | 0 => none
  | k + 1 =>
    if punct_lookahead (run.drop (k + 1) ++ rest) then some (k + 1)
    else greatest_punct_k run rest k

/-- The suffix `[^\s]+(?=(\.\s|,))`: the longest non-empty prefix of the
non-whitespace run after which the lookahead holds. -/
def match_tail_greedy_lookahead (cs : List Char) : Option (List Char) :=
  let run := cs.takeWhile fun c => !isPySpace c
  let rest := cs.dropWhile fun c => !isPySpace c
  (greatest_punct_k run rest run.length).map fun k => run.take k

/-- The lazy suffix `[^\s]+?(?=stop)`: the shortest non-empty run of
non-whitespace characters after which the text starts with `stop`. -/
def match_tail_lazy_until (stop : List Char) : List Char → Option (List Char)
  | [] => none
  | c :: rest =>
    if isPySpace c then none
    else if stop.isPrefixOf rest then some [c]
    else (match_tail_lazy_until stop rest).map (c :: ·)

/-- First strategy of `all_doi_res`: `10.[\d\.]+/[^\s]+`. -/
def re_plain : Matcher := fun _left cs =>
  (match_doi_head cs).bind fun hr => (match_tail_greedy hr.2).map (hr.1 ++ ·)

/-- Second strategy: `10.[\d\.]+/[^\s]+(?=(\.\s|,))`. -/
def re_punct : Matcher := fun _left cs =>
  (match_doi_head cs).bind fun hr => (match_tail_greedy_lookahead hr.2).map (hr.1 ++ ·)

/-- The lookbehind `(?<=doi:)` on the reversed prefix. -/
def doi_lookbehind (left : List Char) : Bool :=
  [':', 'i', 'o', 'd'].isPrefixOf left

/-- Third strategy: `(?<=doi:)10.[\d\.]+/[^\s]+`. -/
def re_doi_plain : Matcher := fun left cs =>
  if doi_lookbehind left then re_plain left cs else none

/-- Fourth strategy: `(?<=doi:)10.[\d\.]+/[^\s]+(?=(\.\s|,))`. -/
def re_doi_punct : Matcher := fun left cs =>
  if doi_lookbehind left then re_punct left cs else none

/-- The literal lookbehind of `grl_re`. -/
def grl_header : List Char :=
  "GeophysicalResearchLetters\nRESEARCHLETTER\n".data

/-- The literal lookbehind of `agu_re`. -/
def agu_header : List Char :=
  "RESEARCHARTICLE\n".data

/-- The literal lookahead shared by `grl_re` and `agu_re`. -/
def key_point : List Char :=
  "KeyPoint".data

/-- Fifth strategy, `grl_re`:
`(?<=GeophysicalResearchLetters\nRESEARCHLETTER\n)10.[\d\.]+/[^\s]+?(?=KeyPoint)`. -/
def grl_re : Matcher := fun left cs =>
  if grl_header.reverse.isPrefixOf left then
    (match_doi_head cs).bind fun hr => (match_tail_lazy_until key_point hr.2).map (hr.1 ++ ·)
  else none

/-- Sixth strategy, `agu_re`:
`(?<=RESEARCHARTICLE\n)10.[\d\.]+/[^\s]+?(?=KeyPoint)`. -/
def agu_re : Matcher := fun left cs =>
  if agu_header.reverse.isPrefixOf left then
    (match_doi_head cs).bind fun hr => (match_tail_lazy_until key_point hr.2).map (hr.1 ++ ·)
  else none

/-- Model of `re.search`: try the matcher at positions 0, 1, 2, … and return the first
successful match. -/
def search_go (m : Matcher) : List Char → List Char → Option (List Char)
  | left, [] => m left []
  | left, c :: rest =>
    match m left (c :: rest) with
    | some r => some r
    | none => search_go m (c :: left) rest

/-- Model of `doi_re.search(pdf_text)` followed by `.group(0)`. -/
def re_search (m : Matcher) (text : String) : Option String :=
  (search_go m [] text.data).map String.mk

/-- Model of `all_doi_res`: the fixed strategy list, in source order. -/
def all_doi_res : List Matcher :=
  [re_plain, re_punct, re_doi_plain, re_doi_punct, grl_re, agu_re]

/-- The truncation loop of `pdf2bib`: `last_idx` is advanced past each
character of code point at most 127 and the scan stops at the first character
above 127; the matched string is cut at `last_idx`. -/
def ascii_truncate_go : List Char → List Char
  | [] => []
  | c :: rest => if 127 < c.toNat then [] else c :: ascii_truncate_go rest

/-- String wrapper for the `pdf2bib` truncation loop. -/
def ascii_truncate (s : String) : String :=
  String.mk (ascii_truncate_go s.data)

/-- The two failure modes of `pdf2bib`. -/
inductive Pdf2BibError where
  | DoiNotFoundError
  | BibRetrievalError
deriving DecidableEq

/-- The strategy loop of `pdf2bib`.  The external `get_bib_from_doi` registry
resolver is a parameter returning Python's `(success, bib_string)` pair; the
Boolean accumulator is the `found_a_doi` flag and the returned string is
`bib_string` (empty when every resolution failed). -/
def pdf2bib_go (resolver : String → Bool × String) (text : String) :
    List Matcher → Bool → Bool × String
  | [], found => (found, "")
  | m :: rest, found =>
    match re_search m text with
    | none => pdf2bib_go resolver text rest found
    | some matched =>
      let doi_string := ascii_truncate matched
      let res := resolver doi_string
      if res.1 then (true, res.2) else pdf2bib_go resolver text rest true

/-- Model of `pdf2bib`, on the already-extracted first-page text (`get_pdf_page_text`
is I/O and is replaced by passing the text): run the strategy loop, then raise
`DoiNotFoundError` when no strategy matched, `BibRetrievalError` when some
strategy matched but no lookup succeeded with a non-empty bib string. -/
def pdf2bib (resolver : String → Bool × String) (text : String) :
    Except Pdf2BibError String :=
  let res := pdf2bib_go resolver text all_doi_res false
  if res.1 = false then Except.error Pdf2BibError.DoiNotFoundError
  else if res.2.length = 0 then Except.error Pdf2BibError.BibRetrievalError
  else Except.ok res.2

/-- The match of the first strategy in `all_doi_res` whose search succeeds on
the text. -/
def first_doi_match (text : String) : Option String :=
  all_doi_res.findSome? fun m => re_search m text

/-! `BetterBibDatabase.add_entry_by_string`. -/

/-- The assignment `tmpdat.entries[0]['file'] = file_name`, performed only
when a file name was given. -/
def set_file (e : Entry) (file_name : Option String) : Entry :=
  match file_name with
  | some fn => { e with fields := e.fields.insert "file" fn }
  | none => e

/-- Model of `BetterBibDatabase.add_entry_by_string`.  The bibtexparser parse (library
code) is a parameter turning the bib string into the parsed entry list; `none`
models the `IndexError` on `tmpdat.entries[0]` when the parse produces no
entry.  The file-existence skip runs before the string is parsed; only the
first parsed entry is consulted and appended. -/
def add_entry_by_string (parse : String → List Entry) (entries : List Entry)
    (bib_string : String) (file_name : Option String)
    (skip_if_file_exists skip_if_doi_exists : Bool) : Option (List Entry) :=
  if skip_if_file_exists && file_name.any fun fn => (files entries).contains fn then
    some entries
  else
    match parse bib_string with
    | [] => none
    | e0 :: _rest =>
      if skip_if_doi_exists && (e0.fields.lookup "doi").any fun d => (dois entries).contains d then
        some entries
      else
        some (entries ++ [set_file e0 file_name])

/-! Helper lemmas about the Python-dict model. -/

theorem pydict_lookup_insert (d : List (String × Entry)) (key k : String) (v : Entry) :
    pydict_lookup (pydict_insert d key v) k =
      if k = key then some v else pydict_lookup d k := by
  induction d with
  | nil =>
    by_cases h : k = key
    · subst h; simp [pydict_insert, pydict_lookup]
    · simp [pydict_insert, pydict_lookup, List.find?, Ne.symm h, h]
  | cons p rest ih =>
    obtain ⟨k0, w⟩ := p
    by_cases h0 : k0 = key
    · subst h0
      by_cases h : k = k0
      · subst h; simp [pydict_insert, pydict_lookup, List.find?]
      · simp [pydict_insert, pydict_lookup, List.find?, Ne.symm h, h]
    · by_cases h : k = k0
      · subst h
        simp [pydict_insert, h0, pydict_lookup, List.find?, Ne.symm h0, h0]
      · simp only [pydict_insert, if_neg h0]
        simp only [pydict_lookup] at ih ⊢
        rw [List.find?_cons_of_neg _ (by simpa using fun hh : k0 = k => h hh.symm),
          List.find?_cons_of_neg _ (by simpa using fun hh : k0 = k => h hh.symm), ih]

theorem entries_dict_append (es : List Entry) (e : Entry) :
    entries_dict (es ++ [e]) = pydict_insert (entries_dict es) e.ID e := by
  simp [entries_dict, List.foldl_append]

/-- The key-to-record index built by `entries_dict` looks up exactly the last
entry of the sequence carrying the key. -/
theorem pydict_lookup_entries_dict (es : List Entry) (k : String) :
    pydict_lookup (entries_dict es) k = es.reverse.find? fun e => e.ID = k := by
  induction es using List.reverseRecOn with
  | nil => simp [entries_dict, pydict_lookup, List.find?]
  | append_singleton es e ih =>
    rw [entries_dict_append, pydict_lookup_insert, List.reverse_append]
    by_cases h : k = e.ID
    · simp [List.find?_cons_of_pos, h]
    · rw [if_neg h, ih]
      simp only [List.reverse_cons, List.reverse_nil, List.nil_append, List.cons_append,
        List.nil_append]
      rw [List.find?_cons_of_neg _ (by simpa using fun hh => h hh.symm)]

theorem dict_get_eq_find (es : List Entry) (k : String) :
    dict_get es k = es.reverse.find? fun e => e.ID = k :=
  pydict_lookup_entries_dict es k

theorem dict_get_some (es : List Entry) (k : String) (e : Entry)
    (h : dict_get es k = some e) : e.ID = k ∧ e ∈ es := by
  rw [dict_get_eq_find] at h
  exact ⟨by simpa using List.find?_some h,
    by simpa using List.mem_of_find?_eq_some h⟩

theorem find?_eq_some_of_unique {α : Type} (p : α → Bool) (l : List α) (a : α)
    (ha : a ∈ l) (hp : p a = true) (huniq : ∀ b ∈ l, p b = true → b = a) :
    l.find? p = some a := by
  induction l with
  | nil => cases ha
  | cons b rest ih =>
    by_cases hb : p b = true
    · rw [List.find?_cons_of_pos _ hb, huniq b (List.mem_cons_self _ _) hb]
    · rw [List.find?_cons_of_neg _ hb]
      rcases List.mem_cons.mp ha with h | h
      · exact absurd (h ▸ hp) hb
      · exact ih h fun c hc => huniq c (List.mem_cons_of_mem _ hc)

/-- With unique keys, the index maps each entry's key back to that entry. -/
theorem dict_get_of_mem_nodup (es : List Entry) (e : Entry)
    (hnd : (ids es).Nodup) (he : e ∈ es) : dict_get es e.ID = some e := by
  rw [dict_get_eq_find]
  refine find?_eq_some_of_unique _ _ _ (List.mem_reverse.mpr he) (by simp) ?_
  intro b hb hpb
  exact List.inj_on_of_nodup_map hnd (List.mem_reverse.mp hb) he (by simpa using hpb)

theorem pydict_lookup_some_mem_keys (d : List (String × Entry)) (k : String) (v : Entry)
    (h : pydict_lookup d k = some v) : k ∈ d.map Prod.fst := by
  simp only [pydict_lookup, Option.map_eq_some'] at h
  obtain ⟨p, hp, hv⟩ := h
  have hk : p.1 = k := by simpa using List.find?_some hp
  exact hk ▸ List.mem_map_of_mem Prod.fst (List.mem_of_find?_eq_some hp)

theorem mem_dict_keys_of_mem (es : List Entry) (e : Entry)
    (hnd : (ids es).Nodup) (he : e ∈ es) : e.ID ∈ dict_keys es :=
  pydict_lookup_some_mem_keys _ _ _ (dict_get_of_mem_nodup es e hnd he)

/-! Claim C5: merge idempotence under the keep-base (`first`) policy. -/

theorem merge_step_self (resolve : List Entry → List Entry → String → List Entry)
    (excluded : List String) (ei : Bool) (A : List Entry) (k : String) :
    merge_step resolve excluded ei A A k = A := by
  unfold merge_step
  by_cases hin : k ∈ ids A
  · rw [if_neg (by simpa using hin)]
    cases hget : dict_get A k with
    | none => rfl
    | some e => simp [are_entries_equivalent]
  · rw [if_pos (by simpa using hin)]
    cases hget : dict_get A k with
    | none => rfl
    | some e =>
      obtain ⟨hid, hmem⟩ := dict_get_some A k e hget
      exact absurd (hid ▸ List.mem_map_of_mem Entry.ID hmem) hin

/-- Claim C5 — merging a store into itself as the sole auxiliary store under
the keep-base (`first`) conflict policy leaves the store unchanged: for every
key the base and incoming entries are the same dict, `_are_entries_equivalent`
is plain dict equality, so the equivalence branch is taken and performs no
mutation, and `_conflict_resolve_first` would not mutate either. -/
theorem merge_self_keep_base_unchanged (A : List Entry) (excluded : List String) :
    merge_bib_files conflict_resolve_first A [A] excluded false = A := by
  have hfold : ∀ (ks : List String) (B : List Entry), B = A →
      ks.foldl (merge_step conflict_resolve_first excluded false A) B = A := by
    intro ks
    induction ks with
    | nil => intro B hB; simpa using hB
    | cons k rest ih =>
      intro B hB
      rw [List.foldl_cons, hB, merge_step_self]
      exact ih A rfl
  simpa [merge_bib_files, merge_one_file] using hfold (dict_keys A) A rfl

/-! Claim C1: merge followed by non-interactive exclusion cleanup. -/

theorem remove_entry_spec (entries : List Entry) (k : String)
    (h : ∃ e ∈ entries, e.ID = k) :
    ∃ es', remove_entry_by_key entries k = some es' ∧
      ∀ k', entries.countP (fun e => e.ID = k') =
        es'.countP (fun e => e.ID = k') + (if k' = k then 1 else 0) := by
  induction entries with
  | nil => simp at h
  | cons e0 rest ih =>
    by_cases h0 : e0.ID = k
    · refine ⟨rest, by simp [remove_entry_by_key, h0], ?_⟩
      intro k'
      rw [List.countP_cons]
      by_cases hk : k' = k
      · subst hk; simp [h0]
      · simp [h0, hk, Ne.symm hk]
    · have hr : ∃ e ∈ rest, e.ID = k := by
        obtain ⟨e, he, hek⟩ := h
        rcases List.mem_cons.mp he with rfl | hmem
        · exact absurd hek h0
        · exact ⟨e, hmem, hek⟩
      obtain ⟨es', hrem, hcnt⟩ := ih hr
      refine ⟨e0 :: es', by simp [remove_entry_by_key, h0, hrem], ?_⟩
      intro k'
      rw [List.countP_cons, List.countP_cons, hcnt k']
      omega

theorem remove_go_spec (excluded : List String) :
    ∀ (ks : List String) (entries : List Entry),
      (∀ k, ks.countP (fun x => x = k) ≤ entries.countP (fun e => e.ID = k)) →
      (∀ k ∈ excluded, entries.countP (fun e => e.ID = k) ≤ ks.countP (fun x => x = k)) →
      ∃ res, remove_excluded_go excluded ks entries = some res ∧
        ∀ e ∈ res, e.ID ∉ excluded := by
  intro ks
  induction ks with
  | nil =>
    intro entries _ h2
    refine ⟨entries, rfl, ?_⟩
    intro e he hex
    have hle := h2 e.ID hex
    have hpos : 0 < entries.countP (fun e' => e'.ID = e.ID) :=
      List.countP_pos_iff.mpr ⟨e, he, by simp⟩
    rw [List.countP_nil] at hle
    omega
  | cons k ks ih =>
    intro entries h1 h2
    by_cases hk : k ∈ excluded
    · have hpos : 0 < entries.countP (fun e => e.ID = k) := by
        have := h1 k
        have : 0 < (k :: ks).countP (fun x => x = k) := by
          rw [List.countP_cons]; simp
        omega
      obtain ⟨es', hrem, hcnt⟩ := remove_entry_spec entries k (by
        obtain ⟨e, he, hp⟩ := List.countP_pos_iff.mp hpos
        exact ⟨e, he, by simpa using hp⟩)
      have h1' : ∀ k', ks.countP (fun x => x = k') ≤ es'.countP (fun e => e.ID = k') := by
        intro k'
        have ha := h1 k'
        have hb := hcnt k'
        rw [List.countP_cons] at ha
        by_cases hkk : k' = k
        · subst hkk; simp at ha hb; omega
        · simp [Ne.symm hkk, hkk] at ha hb; omega
      have h2' : ∀ k' ∈ excluded, es'.countP (fun e => e.ID = k') ≤
          ks.countP (fun x => x = k') := by
        intro k' hk'
        have ha := h2 k' hk'
        have hb := hcnt k'
        rw [List.countP_cons] at ha
        by_cases hkk : k' = k
        · subst hkk; simp at ha hb; omega
        · simp [Ne.symm hkk, hkk] at ha hb; omega
      obtain ⟨res, hgo, hres⟩ := ih es' h1' h2'
      exact ⟨res, by simp [remove_excluded_go, hk, hrem, hgo], hres⟩
    · have h1' : ∀ k', ks.countP (fun x => x = k') ≤ entries.countP (fun e => e.ID = k') := by
        intro k'
        have := h1 k'
        rw [List.countP_cons] at this
        omega
      have h2' : ∀ k' ∈ excluded, entries.countP (fun e => e.ID = k') ≤
          ks.countP (fun x => x = k') := by
        intro k' hk'
        have := h2 k' hk'
        rw [List.countP_cons] at this
        have hne : ¬(k = k') := fun hh => hk (hh ▸ hk')
        simp [hne] at this
        omega
      obtain ⟨res, hgo, hres⟩ := ih entries h1' h2'
      exact ⟨res, by simp [remove_excluded_go, hk, hgo], hres⟩

/-- The non-interactive exclusion cleanup always terminates normally and
leaves no entry whose key is in the exclusion set. -/
theorem remove_excluded_spec (entries : List Entry) (excluded : List String) :
    ∃ res, remove_excluded_bib_keys entries excluded = some res ∧
      ∀ e ∈ res, e.ID ∉ excluded := by
  refine remove_go_spec excluded (ids entries) entries ?_ ?_
  · intro k
    rw [ids, List.countP_map]
    exact le_of_eq rfl
  · intro k _
    rw [ids, List.countP_map]
    exact le_of_eq rfl

theorem keys_pydict_insert (d : List (String × Entry)) (key : String) (v : Entry) :
    (pydict_insert d key v).map Prod.fst =
      if key ∈ d.map Prod.fst then d.map Prod.fst else d.map Prod.fst ++ [key] := by
  induction d with
  | nil => simp [pydict_insert]
  | cons p rest ih =>
    obtain ⟨k0, w⟩ := p
    by_cases h0 : k0 = key
    · subst h0; simp [pydict_insert]
    · by_cases hk : key ∈ rest.map Prod.fst
      · simp [pydict_insert, h0, ih, hk, Ne.symm h0]
      · simp [pydict_insert, h0, ih, hk, Ne.symm h0]

theorem keys_nodup_pydict_insert (d : List (String × Entry)) (key : String) (v : Entry)
    (h : (d.map Prod.fst).Nodup) : ((pydict_insert d key v).map Prod.fst).Nodup := by
  rw [keys_pydict_insert]
  by_cases hk : key ∈ d.map Prod.fst
  · simpa [hk] using h
  · simp [hk, List.nodup_append, h]

theorem dict_keys_nodup (es : List Entry) : (dict_keys es).Nodup := by
  have hfold : ∀ (l : List Entry) (d : List (String × Entry)), (d.map Prod.fst).Nodup →
      (((l.foldl (fun d' e => pydict_insert d' e.ID e) d)).map Prod.fst).Nodup := by
    intro l
    induction l with
    | nil => intro d hd; simpa using hd
    | cons e rest ih =>
      intro d hd
      rw [List.foldl_cons]
      exact ih _ (keys_nodup_pydict_insert d e.ID e hd)
  exact hfold es [] (by simp)

theorem replace_preserves_mem (key : String) (x e : Entry) (hne : e.ID ≠ key) :
    ∀ b b' : List Entry, replace_entry_by_key b key x = some b' → e ∈ b → e ∈ b' := by
  intro b
  induction b with
  | nil => intro b' h; cases h
  | cons e0 rest ih =>
    intro b' hrep he
    by_cases h0 : e0.ID = key
    · simp only [replace_entry_by_key, if_pos h0, Option.some_inj] at hrep
      subst hrep
      rcases List.mem_cons.mp he with rfl | h
      · exact absurd h0 hne
      · exact List.mem_cons_of_mem _ h
    · simp only [replace_entry_by_key, if_neg h0, Option.map_eq_some'] at hrep
      obtain ⟨b'', hb'', rfl⟩ := hrep
      rcases List.mem_cons.mp he with rfl | h
      · exact List.mem_cons_self _ _
      · exact List.mem_cons_of_mem _ (ih b'' hb'' h)

theorem replace_preserves_ids_not_mem (key : String) (x : Entry) (k : String)
    (hx : x.ID ≠ k) : ∀ b b' : List Entry, replace_entry_by_key b key x = some b' →
      k ∉ ids b → k ∉ ids b' := by
  intro b
  induction b with
  | nil => intro b' h; cases h
  | cons e0 rest ih =>
    intro b' hrep hk
    by_cases h0 : e0.ID = key
    · simp only [replace_entry_by_key, if_pos h0, Option.some_inj] at hrep
      subst hrep
      simp only [ids, List.map_cons, List.mem_cons, not_or] at hk ⊢
      exact ⟨fun hh => hx hh.symm, hk.2⟩
    · simp only [replace_entry_by_key, if_neg h0, Option.map_eq_some'] at hrep
      obtain ⟨b'', hb'', rfl⟩ := hrep
      simp only [ids, List.map_cons, List.mem_cons, not_or] at hk ⊢
      exact ⟨hk.1, by simpa [ids] using ih b'' hb'' (by simpa [ids] using hk.2)⟩

theorem conflict_resolve_mem (resolve : List Entry → List Entry → String → List Entry)
    (hres : resolve = conflict_resolve_first ∨ resolve = conflict_resolve_last)
    (b n : List Entry) (key : String) (e : Entry) (he : e ∈ b) (hne : e.ID ≠ key) :
    e ∈ resolve b n key := by
  rcases hres with rfl | rfl
  · exact he
  · unfold conflict_resolve_last
    cases hget : dict_get n key with
    | none => exact he
    | some en =>
      show e ∈ replace_or_keep b key en
      unfold replace_or_keep
      cases hrep : replace_entry_by_key b key en with
      | none => exact he
      | some b' => exact replace_preserves_mem key en e hne b b' hrep he

theorem conflict_resolve_ids (resolve : List Entry → List Entry → String → List Entry)
    (hres : resolve = conflict_resolve_first ∨ resolve = conflict_resolve_last)
    (b n : List Entry) (key k : String) (hk : k ∉ ids b) (hkey : key ≠ k) :
    k ∉ ids (resolve b n key) := by
  rcases hres with rfl | rfl
  · exact hk
  · unfold conflict_resolve_last
    cases hget : dict_get n key with
    | none => exact hk
    | some en =>
      show k ∉ ids (replace_or_keep b key en)
      unfold replace_or_keep
      cases hrep : replace_entry_by_key b key en with
      | none => exact hk
      | some b' =>
        exact replace_preserves_ids_not_mem key en k
          (by rw [(dict_get_some n key en hget).1]; exact hkey) b b' hrep hk

theorem merge_step_preserves_mem (resolve : List Entry → List Entry → String → List Entry)
    (hres : resolve = conflict_resolve_first ∨ resolve = conflict_resolve_last)
    (excluded : List String) (ei : Bool) (aux b : List Entry) (k' : String)
    (e : Entry) (he : e ∈ b) (hne : e.ID ≠ k') :
    e ∈ merge_step resolve excluded ei aux b k' := by
  unfold merge_step
  by_cases hin : k' ∈ ids b
  · rw [if_neg (by simpa using hin)]
    cases hgb : dict_get b k' with
    | none => cases hga : dict_get aux k' <;> exact he
    | some eb =>
      cases hga : dict_get aux k' with
      | none => exact he
      | some en =>
        by_cases heq : are_entries_equivalent eb en
        · simpa [heq] using he
        · by_cases hcond : k' ∉ excluded ∨ ei = true
          · simpa [heq, hcond] using conflict_resolve_mem resolve hres b aux k' e he hne
          · simpa [heq, hcond] using he
  · rw [if_pos (by simpa using hin)]
    cases hga : dict_get aux k' with
    | none => exact he
    | some en => exact List.mem_append_left _ he

theorem merge_step_preserves_ids_not_mem
    (resolve : List Entry → List Entry → String → List Entry)
    (hres : resolve = conflict_resolve_first ∨ resolve = conflict_resolve_last)
    (excluded : List String) (ei : Bool) (aux b : List Entry) (k' k : String)
    (hk : k ∉ ids b) (hne : k' ≠ k) :
    k ∉ ids (merge_step resolve excluded ei aux b k') := by
  unfold merge_step
  by_cases hin : k' ∈ ids b
  · rw [if_neg (by simpa using hin)]
    cases hgb : dict_get b k' with
    | none => cases hga : dict_get aux k' <;> exact hk
    | some eb =>
      cases hga : dict_get aux k' with
      | none => exact hk
      | some en =>
        by_cases heq : are_entries_equivalent eb en
        · simpa [heq] using hk
        · by_cases hcond : k' ∉ excluded ∨ ei = true
          · simpa [heq, hcond] using conflict_resolve_ids resolve hres b aux k' k hk hne
          · simpa [heq, hcond] using hk
  · rw [if_pos (by simpa using hin)]
    cases hga : dict_get aux k' with
    | none => exact hk
    | some en =>
      have hid : en.ID = k' := (dict_get_some aux k' en hga).1
      simp only [ids, List.map_append, List.map_cons, List.map_nil, List.mem_append,
        List.mem_singleton, not_or] at hk ⊢
      exact ⟨by simpa [ids] using hk, by rw [hid]; exact fun hh => hne hh.symm⟩

theorem merge_fold_preserves_mem (resolve : List Entry → List Entry → String → List Entry)
    (hres : resolve = conflict_resolve_first ∨ resolve = conflict_resolve_last)
    (excluded : List String) (ei : Bool) (aux : List Entry) (e : Entry) :
    ∀ (ks : List String) (b : List Entry), e ∈ b → e.ID ∉ ks →
      e ∈ ks.foldl (merge_step resolve excluded ei aux) b := by
  intro ks
  induction ks with
  | nil => intro b he _; simpa using he
  | cons k' rest ih =>
    intro b he hni
    simp only [List.mem_cons, not_or] at hni
    rw [List.foldl_cons]
    exact ih _ (merge_step_preserves_mem resolve hres excluded ei aux b k' e he hni.1) hni.2

theorem merge_fold_new_key (resolve : List Entry → List Entry → String → List Entry)
    (hres : resolve = conflict_resolve_first ∨ resolve = conflict_resolve_last)
    (excluded : List String) (ei : Bool) (aux : List Entry) (k : String) (e : Entry)
    (hget : dict_get aux k = some e) :
    ∀ (ks : List String) (b : List Entry), k ∈ ks → ks.Nodup → k ∉ ids b →
      e ∈ ks.foldl (merge_step resolve excluded ei aux) b := by
  intro ks
  induction ks with
  | nil => intro b h; cases h
  | cons k' rest ih =>
    intro b hmem hnd hkb
    rw [List.foldl_cons]
    rcases List.mem_cons.mp hmem with rfl | hmemrest
    · have hstep : merge_step resolve excluded ei aux b k = b ++ [e] := by
        unfold merge_step
        rw [if_pos (by simpa using hkb), hget]
      rw [hstep]
      refine merge_fold_preserves_mem resolve hres excluded ei aux e rest (b ++ [e])
        (List.mem_append_right _ (List.mem_singleton.mpr rfl)) ?_
      rw [(dict_get_some aux k e hget).1]
      exact (List.nodup_cons.mp hnd).1
    · have hkne : k' ≠ k := fun hh => (List.nodup_cons.mp hnd).1 (hh ▸ hmemrest)
      exact ih _ hmemrest (List.nodup_cons.mp hnd).2
        (merge_step_preserves_ids_not_mem resolve hres excluded ei aux b k' k hkb hkne)

/-- During the merge pass over one auxiliary store, every auxiliary record
whose key is absent from the base store is appended — also when that key is in
the exclusion set. -/
theorem merge_one_file_appends (resolve : List Entry → List Entry → String → List Entry)
    (hres : resolve = conflict_resolve_first ∨ resolve = conflict_resolve_last)
    (excluded : List String) (ei : Bool) (base aux : List Entry)
    (hnd : (ids aux).Nodup) (e : Entry) (he : e ∈ aux) (hnew : e.ID ∉ ids base) :
    e ∈ merge_one_file resolve excluded ei base aux := by
  unfold merge_one_file
  exact merge_fold_new_key resolve hres excluded ei aux e.ID e
    (dict_get_of_mem_nodup aux e hnd he) (dict_keys aux) base
    (mem_dict_keys_of_mem aux e hnd he) (dict_keys_nodup aux) hnew

/-- Claim C1 — merge followed by non-interactive exclusion cleanup.  With a
non-interactive conflict policy: (1) when merging a single auxiliary store,
every auxiliary record whose key is absent from the base store is appended,
even when its key is excluded; and (2) the cleanup pass then succeeds and
removes every entry whose key is in the exclusion set, so no excluded key
remains in the resulting store. -/
theorem merge_then_cleanup_excluded
    (resolve : List Entry → List Entry → String → List Entry)
    (hres : resolve = conflict_resolve_first ∨ resolve = conflict_resolve_last)
    (base : List Entry) (auxStores : List (List Entry)) (excluded : List String) :
    (∀ aux, auxStores = [aux] → (ids aux).Nodup →
      ∀ e ∈ aux, e.ID ∉ ids base →
        e ∈ merge_bib_files resolve base auxStores excluded false) ∧
    (∃ result,
      remove_excluded_bib_keys (merge_bib_files resolve base auxStores excluded false)
          excluded = some result ∧
        ∀ e ∈ result, e.ID ∉ excluded) := by
  constructor
  · rintro aux rfl hnd e he hnew
    simpa [merge_bib_files] using
      merge_one_file_appends resolve hres excluded false base aux hnd e he hnew
  · exact remove_excluded_spec _ excluded

/-- Witness for C1: a base store with key `K1`, one auxiliary store with key
`K2`, both keys excluded.  The auxiliary `K2` record is appended by the merge
pass even though it is excluded, and after the cleanup pass neither `K1` nor
`K2` remains. -/
theorem merge_then_cleanup_excluded_witness :
    ((⟨"K2", "article", ∅⟩ : Entry) ∈
      merge_bib_files conflict_resolve_first [⟨"K1", "article", ∅⟩]
        [[⟨"K2", "article", ∅⟩]] ["K1", "K2"] false) ∧
    (∃ result,
      remove_excluded_bib_keys
          (merge_bib_files conflict_resolve_first [⟨"K1", "article", ∅⟩]
            [[⟨"K2", "article", ∅⟩]] ["K1", "K2"] false) ["K1", "K2"] = some result ∧
        ∀ e ∈ result, e.ID ∉ ["K1", "K2"]) := by
  have h := merge_then_cleanup_excluded conflict_resolve_first (Or.inl rfl)
    [⟨"K1", "article", ∅⟩] [[⟨"K2", "article", ∅⟩]] ["K1", "K2"]
  refine ⟨h.1 [⟨"K2", "article", ∅⟩] rfl (by simp [ids]) _ (List.mem_singleton.mpr rfl)
    (by simp [ids]), h.2⟩

/-! Claim C3: key collision resolution and suffix exhaustion. -/

theorem findSome?_first_hit {α β : Type} (R : α → α → Prop) (f : α → Option β)
    (l : List α) (a : α) (ha : a ∈ l) (hfa : f a ≠ none)
    (hearlier : ∀ b ∈ l, R b a → f b = none) (hpw : l.Pairwise R) :
    l.findSome? f = f a := by
  induction l with
  | nil => cases ha
  | cons x rest ih =>
    rcases List.mem_cons.mp ha with heq | hmem
    · rw [List.findSome?_cons, ← heq]
      cases hfx : f a with
      | none => exact absurd hfx hfa
      | some y => rfl
    · have hRxa : R x a := (List.pairwise_cons.mp hpw).1 a hmem
      have hfx : f x = none := hearlier x (List.mem_cons_self _ _) hRxa
      rw [List.findSome?_cons, hfx]
      exact ih hmem (fun b hb hR => hearlier b (List.mem_cons_of_mem _ hb) hR)
        (List.pairwise_cons.mp hpw).2

/-- Claim C3 — collision resolution of `format_id`: a free base key is
returned unchanged; otherwise the first suffix in the alphabetical list
`A`..`Z` producing a free key is appended; the operation errors out exactly
when the base key and all 26 suffixed variants are taken. -/
theorem format_id_unique_spec (record_id : String) (all_ids : List String) :
    (record_id ∉ all_ids → format_id_unique record_id all_ids = some record_id) ∧
    (∀ L ∈ iter_letters 'A' 'Z', record_id ∈ all_ids → record_id.push L ∉ all_ids →
      (∀ L' ∈ iter_letters 'A' 'Z', L'.toNat < L.toNat → record_id.push L' ∈ all_ids) →
      format_id_unique record_id all_ids = some (record_id.push L)) ∧
    (format_id_unique record_id all_ids = none ↔
      record_id ∈ all_ids ∧ ∀ L ∈ iter_letters 'A' 'Z', record_id.push L ∈ all_ids) := by
  refine ⟨?_, ?_, ?_⟩
  · intro h
    simp [format_id_unique, h]
  · intro L hL hin hfree hprev
    unfold format_id_unique
    rw [if_pos hin]
    have hpw : (iter_letters 'A' 'Z').Pairwise (fun a b => a.toNat < b.toNat) := by decide
    rw [findSome?_first_hit (fun a b => a.toNat < b.toNat)
      (fun letter =>
        if record_id.push letter ∈ all_ids then none else some (record_id.push letter))
      _ L hL (by simp [hfree]) (fun b hb hR => by simp [hprev b hb hR]) hpw]
    simp [hfree]
  · constructor
    · intro hnone
      unfold format_id_unique at hnone
      by_cases hin : record_id ∈ all_ids
      · rw [if_pos hin] at hnone
        refine ⟨hin, ?_⟩
        intro L hL
        have := (List.findSome?_eq_none_iff.mp hnone) L hL
        by_contra hfree
        simp [hfree] at this
      · rw [if_neg hin] at hnone
        cases hnone
    · rintro ⟨hin, hall⟩
      unfold format_id_unique
      rw [if_pos hin]
      exact List.findSome?_eq_none_iff.mpr fun L hL => by simp [hall L hL]

/-- Witness for C3: with existing keys `SmithJ20` and `SmithJ20A`, the base
key `SmithJ20` resolves to `SmithJ20B`. -/
theorem format_id_unique_spec_witness :
    format_id_unique "SmithJ20" ["SmithJ20", "SmithJ20A"] = some "SmithJ20B" := by
  have h := (format_id_unique_spec "SmithJ20" ["SmithJ20", "SmithJ20A"]).2.1
  exact h 'B' (by decide) (by decide) (by decide) (by decide)

/-! Claim C4: the base-key derivation formula.  The code keeps underscores:
the final cleanup `re.sub('[^\w\-]', '', ...)` removes only characters that
are neither word characters nor hyphens, and Python's `\w` includes `_`,
although the docstring of `format_id` says record IDs avoid underscores. -/

/-- Claim C4 (divergence witness) — for a record with author `John Sm_ith` and
year `2020` the code derives the base key `Sm_ithJ20`: the underscore survives
the cleanup pipeline, contradicting "every character that is not alphanumeric
or hyphen removed" (which would give `SmithJ20`). -/
theorem format_id_base_keeps_underscore :
    format_id_base "John Sm_ith" "2020" = some "Sm_ithJ20" ∧
    '_' ∈ "Sm_ithJ20".data ∧ ¬ ('S' :: "m_ithJ20".data).all (fun c => c.isAlphanum || c = '-') := by
  refine ⟨by decide, by decide, by decide⟩

/-! Claim C6: journal abbreviation.  The substitution `re.sub('The\s?', '', name)`
is not limited to a leading `The `, and on a lookup miss the *stripped* name —
not the original — is returned. -/

/-- Claim C6 counterexample — `The Astrophysical Journal` has no table entry,
and `abbreviate_journal` does not return the original name unchanged: the
leading `The ` has been removed from the returned string. -/
theorem abbreviate_journal_not_original :
    abbreviate_journal "The Astrophysical Journal" = "Astrophysical Journal" ∧
    abbreviate_journal "The Astrophysical Journal" ≠ "The Astrophysical Journal" := by
  refine ⟨by decide, by decide⟩

theorem sub_the_go_no_occurrence :
    ∀ cs : List Char, ¬ (['T', 'h', 'e'] <:+: cs) → sub_the_go cs 0 = cs := by
  intro cs
  induction cs with
  | nil => intro _; rfl
  | cons c rest ih =>
    intro hni
    have hhead : ¬ (c = 'T' ∧ ['h', 'e'].isPrefixOf rest) := by
      rintro ⟨rfl, hpre⟩
      obtain ⟨t, ht⟩ := List.isPrefixOf_iff_prefix.mp hpre
      exact hni ⟨[], t, by simp [← ht]⟩
    have htail : ¬ (['T', 'h', 'e'] <:+: rest) := by
      rintro ⟨s, t, hst⟩
      exact hni ⟨c :: s, t, by simp [← hst]⟩
    simp only [sub_the_go]
    rw [if_neg hhead, ih htail]

/-- Claim C6 as amended — journal abbreviation is an exact-match lookup in the
static table after every occurrence of `The`, together with one optional
following whitespace character, has been removed from the name (not only a
leading `The `); when no table entry matches the stripped name, the stripped
name — not the original — is returned; a name containing no occurrence of
`The` is passed to the lookup unchanged; in particular `The Journal of
Chemical Physics` abbreviates to `J. Chem. Phys`. -/
theorem abbreviate_journal_amended :
    (∀ (name : String) (p : String × String), p ∈ abbrev_list → p.1 = sub_the name →
      abbreviate_journal name = p.2) ∧
    (∀ name : String, (∀ p ∈ abbrev_list, p.1 ≠ sub_the name) →
      abbreviate_journal name = sub_the name) ∧
    (∀ name : String, ¬ ("The".data <:+: name.data) → sub_the name = name) ∧
    abbreviate_journal "The Journal of Chemical Physics" = "J. Chem. Phys" := by
  have hnd : (abbrev_list.map Prod.fst).Nodup := by decide
  refine ⟨?_, ?_, ?_, by decide⟩
  · intro name p hp hkey
    have hfind : abbrev_list.find? (fun q => q.1 = sub_the name) = some p := by
      refine find?_eq_some_of_unique _ _ _ hp (by simp [hkey]) ?_
      intro b hb hbeq
      exact List.inj_on_of_nodup_map hnd hb hp (by rw [hkey]; simpa using hbeq)
    simp [abbreviate_journal, abbrev_lookup, hfind]
  · intro name hmiss
    have hfind : abbrev_list.find? (fun q => q.1 = sub_the name) = none :=
      List.find?_eq_none.mpr fun q hq => by simpa using hmiss q hq
    simp [abbreviate_journal, abbrev_lookup, hfind]
  · intro name hni
    have : sub_the_go name.data 0 = name.data := sub_the_go_no_occurrence name.data hni
    simp [sub_the, this]

/-- Witness for the amended C6: `The Journal of Chemical Physics` strips to
the table key `Journal of Chemical Physics` and abbreviates to
`J. Chem. Phys`. -/
theorem abbreviate_journal_amended_witness :
    abbreviate_journal "The Journal of Chemical Physics" = "J. Chem. Phys" :=
  abbreviate_journal_amended.1 "The Journal of Chemical Physics"
    ("Journal of Chemical Physics", "J. Chem. Phys") (by decide) (by decide)

/-! Claims C2 and C7: strategy order and ASCII truncation in `pdf2bib`. -/

theorem string_length_ne_zero (b : String) (hb : b ≠ "") : b.length ≠ 0 := by
  intro h0
  apply hb
  obtain ⟨data⟩ := b
  cases data with
  | nil => rfl
  | cons c cs => simp [String.length] at h0

theorem findSome?_eq_of_first {α β : Type} (f : α → Option β) :
    ∀ (l : List α) (i : Nat) (hi : i < l.length) (m : β),
      f (l.get ⟨i, hi⟩) = some m →
      (∀ j (hj : j < i), f (l.get ⟨j, Nat.lt_trans hj hi⟩) = none) →
      l.findSome? f = some m := by
  intro l
  induction l with
  | nil => intro i hi; cases hi
  | cons x rest ih =>
    intro i hi m hmatch hearlier
    cases i with
    | zero =>
      rw [List.findSome?_cons, show f x = some m from hmatch]
    | succ i' =>
      rw [List.findSome?_cons, show f x = none from hearlier 0 (Nat.succ_pos _)]
      exact ih i' (Nat.lt_of_succ_lt_succ hi) m hmatch
        fun j hj => hearlier (j + 1) (Nat.succ_lt_succ hj)

theorem pdf2bib_go_first_success (resolver : String → Bool × String) (text m b : String) :
    ∀ (ms : List Matcher) (found : Bool),
      ms.findSome? (fun mm => re_search mm text) = some m →
      resolver (ascii_truncate m) = (true, b) →
      pdf2bib_go resolver text ms found = (true, b) := by
  intro ms
  induction ms with
  | nil => intro found h _; simp [List.findSome?] at h
  | cons mm rest ih =>
    intro found hfind hres
    rw [List.findSome?_cons] at hfind
    cases hs : re_search mm text with
    | none =>
      rw [hs] at hfind
      unfold pdf2bib_go
      rw [hs]
      exact ih found hfind hres
    | some m' =>
      rw [hs] at hfind
      have hm : m' = m := by simpa using hfind
      subst hm
      unfold pdf2bib_go
      rw [hs]
      simp [hres]

theorem pdf2bib_go_stays_found (resolver : String → Bool × String) (text : String) :
    ∀ ms : List Matcher, (pdf2bib_go resolver text ms true).1 = true := by
  intro ms
  induction ms with
  | nil => rfl
  | cons mm rest ih =>
    unfold pdf2bib_go
    cases hs : re_search mm text with
    | none => exact ih
    | some m' =>
      show (if (resolver (ascii_truncate m')).1 then (true, (resolver (ascii_truncate m')).2)
        else pdf2bib_go resolver text rest true).1 = true
      by_cases hb : (resolver (ascii_truncate m')).1
      · simp [hb]
      · simp [hb, ih]

theorem pdf2bib_go_found (resolver : String → Bool × String) (text : String) :
    ∀ (ms : List Matcher) (found : Bool) (m : String),
      ms.findSome? (fun mm => re_search mm text) = some m →
      (pdf2bib_go resolver text ms found).1 = true := by
  intro ms
  induction ms with
  | nil => intro found m h; simp [List.findSome?] at h
  | cons mm rest ih =>
    intro found m hfind
    rw [List.findSome?_cons] at hfind
    cases hs : re_search mm text with
    | none =>
      rw [hs] at hfind
      unfold pdf2bib_go
      rw [hs]
      exact ih found m hfind
    | some m' =>
      unfold pdf2bib_go
      rw [hs]
      show (if (resolver (ascii_truncate m')).1 then (true, (resolver (ascii_truncate m')).2)
        else pdf2bib_go resolver text rest true).1 = true
      by_cases hb : (resolver (ascii_truncate m')).1
      · simp [hb]
      · simp [hb, pdf2bib_go_stays_found]

/-- Claim C2 — the pattern strategies are tried in the fixed order of
`all_doi_res`, and the identifier handed to the registry resolver is the match
of the first strategy in the list that matches anywhere in the text: whenever
strategy `i` matches and every strategy before it does not, the extracted
identifier is strategy `i`'s match and (for a resolver succeeding on it with a
non-empty bib string) `pdf2bib` returns that resolution, whatever any later
strategy — or an earlier positional match of a later strategy — would have
produced. -/
theorem pdf2bib_first_strategy_wins (resolver : String → Bool × String) (text : String)
    (i : Nat) (hi : i < all_doi_res.length) (m b : String)
    (hmatch : re_search (all_doi_res.get ⟨i, hi⟩) text = some m)
    (hearlier : ∀ j (hj : j < i), re_search (all_doi_res.get ⟨j, Nat.lt_trans hj hi⟩) text = none)
    (hres : resolver (ascii_truncate m) = (true, b)) (hb : b ≠ "") :
    first_doi_match text = some m ∧ pdf2bib resolver text = Except.ok b := by
  have hfind : first_doi_match text = some m :=
    findSome?_eq_of_first _ all_doi_res i hi m hmatch hearlier
  refine ⟨hfind, ?_⟩
  unfold pdf2bib
  rw [pdf2bib_go_first_success resolver text m b all_doi_res false hfind hres]
  simp [string_length_ne_zero b hb]

/-- Witness for C2: on a GRL first page both the first strategy (the plain DOI
pattern) and the fifth (`grl_re`) match, with different matched substrings;
the first strategy in list order wins and its match is resolved. -/
theorem pdf2bib_first_strategy_wins_witness :
    first_doi_match "GeophysicalResearchLetters\nRESEARCHLETTER\n10.1029/abcKeyPoint" =
      some "10.1029/abcKeyPoint" ∧
    pdf2bib (fun s => (true, String.append "BIB:" s))
        "GeophysicalResearchLetters\nRESEARCHLETTER\n10.1029/abcKeyPoint" =
      Except.ok "BIB:10.1029/abcKeyPoint" ∧
    re_search grl_re "GeophysicalResearchLetters\nRESEARCHLETTER\n10.1029/abcKeyPoint" =
      some "10.1029/abc" := by
  have h := pdf2bib_first_strategy_wins (fun s => (true, String.append "BIB:" s))
    "GeophysicalResearchLetters\nRESEARCHLETTER\n10.1029/abcKeyPoint"
    0 (by decide) "10.1029/abcKeyPoint" "BIB:10.1029/abcKeyPoint"
    (by decide) (fun j hj => absurd hj (Nat.not_lt_zero j)) (by decide) (by decide)
  exact ⟨h.1, h.2, by decide⟩

theorem ascii_truncate_go_front (cs : List Char) :
    ascii_truncate_go cs <+: cs := by
  induction cs with
  | nil => exact List.nil_prefix
  | cons c rest ih =>
    by_cases h : 127 < c.toNat
    · simp [ascii_truncate_go, h, List.nil_prefix]
    · obtain ⟨t, ht⟩ := ih
      exact ⟨t, by simp [ascii_truncate_go, h, ht]⟩

theorem ascii_truncate_go_ascii (cs : List Char) :
    ∀ c ∈ ascii_truncate_go cs, c.toNat ≤ 127 := by
  induction cs with
  | nil => intro c hc; cases hc
  | cons c0 rest ih =>
    intro c hc
    by_cases h : 127 < c0.toNat
    · simp [ascii_truncate_go, h] at hc
    · simp only [ascii_truncate_go, if_neg h, List.mem_cons] at hc
      rcases hc with rfl | hc
      · omega
      · exact ih c hc

theorem ascii_truncate_go_longest :
    ∀ (cs p : List Char), p <+: cs → (∀ c ∈ p, c.toNat ≤ 127) →
      p.length ≤ (ascii_truncate_go cs).length := by
  intro cs
  induction cs with
  | nil =>
    intro p hp _
    obtain rfl := List.prefix_nil.mp hp
    simp
  | cons c rest ih =>
    intro p hp hascii
    cases p with
    | nil => simp
    | cons q p' =>
      have hqc : q = c := (List.cons_prefix_cons.mp hp).1
      have hp' : p' <+: rest := (List.cons_prefix_cons.mp hp).2
      have hq : q.toNat ≤ 127 := hascii q (List.mem_cons_self _ _)
      have hcle : ¬ 127 < c.toNat := by rw [← hqc]; omega
      simp only [ascii_truncate_go, if_neg hcle, List.length_cons, Nat.succ_le_succ_iff]
      exact ih p' hp' fun d hd => hascii d (List.mem_cons_of_mem _ hd)

/-- Claim C7 — the identifier handed to the registry resolver is the longest
all-ASCII (code point at most 127) prefix of the matched substring; a matched
substring whose first character is non-ASCII truncates to the empty string;
and once any strategy has matched, `pdf2bib` submits the truncated identifier
to the resolver and never reports `DoiNotFoundError`, even when the truncated
identifier is empty. -/
theorem ascii_truncate_spec :
    (∀ s : String, (ascii_truncate s).data <+: s.data ∧
      (∀ c ∈ (ascii_truncate s).data, c.toNat ≤ 127) ∧
      ∀ p : List Char, p <+: s.data → (∀ c ∈ p, c.toNat ≤ 127) →
        p.length ≤ (ascii_truncate s).data.length) ∧
    (∀ (s : String) (c : Char) (rest : List Char), s.data = c :: rest → 127 < c.toNat →
      ascii_truncate s = "") ∧
    (∀ (resolver : String → Bool × String) (text m b : String),
      first_doi_match text = some m → resolver (ascii_truncate m) = (true, b) → b ≠ "" →
      pdf2bib resolver text = Except.ok b) ∧
    (∀ (resolver : String → Bool × String) (text m : String),
      first_doi_match text = some m →
      pdf2bib resolver text ≠ Except.error Pdf2BibError.DoiNotFoundError) := by
  refine ⟨?_, ?_, ?_, ?_⟩
  · intro s
    exact ⟨ascii_truncate_go_front s.data, ascii_truncate_go_ascii s.data,
      ascii_truncate_go_longest s.data⟩
  · intro s c rest hdata hc
    have : ascii_truncate_go s.data = [] := by
      rw [hdata]
      simp [ascii_truncate_go, hc]
    simp [ascii_truncate, this]
  · intro resolver text m b hfind hres hb
    unfold pdf2bib
    rw [pdf2bib_go_first_success resolver text m b all_doi_res false hfind hres]
    simp [string_length_ne_zero b hb]
  · intro resolver text m hfind
    unfold pdf2bib
    have h1 : (pdf2bib_go resolver text all_doi_res false).1 = true :=
      pdf2bib_go_found resolver text all_doi_res false m hfind
    simp only [h1]
    by_cases h2 : (pdf2bib_go resolver text all_doi_res false).2.length = 0
    · simp only [h2, if_neg (by simp : ¬(true = false)), if_pos rfl]
      intro hcontra
      exact absurd (Except.error.inj hcontra) (by decide)
    · simp only [if_neg (by simp : ¬(true = false)), if_neg h2]
      intro hcontra
      cases hcontra

/-- Witness for C7: the matched substring `10.5194/acp-11-8543-2011©` (the
copyright glyph is captured by the greedy tail) truncates to its longest ASCII
prefix, which is what the resolver receives. -/
theorem ascii_truncate_spec_witness :
    pdf2bib (fun s => (true, String.append "BIB:" s)) "10.5194/acp-11-8543-2011©x" =
      Except.ok "BIB:10.5194/acp-11-8543-2011" ∧
    ascii_truncate "10.5194/acp-11-8543-2011©x" = "10.5194/acp-11-8543-2011" := by
  refine ⟨ascii_truncate_spec.2.2.1 (fun s => (true, String.append "BIB:" s))
    "10.5194/acp-11-8543-2011©x" "10.5194/acp-11-8543-2011©x"
    "BIB:10.5194/acp-11-8543-2011" (by decide) (by decide) (by decide), by decide⟩

/-! Claims C8 and C10: `add_entry_by_string`. -/

/-- Claim C8 — re-import idempotence under the default file-dedup policy
(`skip_if_file_exists=True`, `skip_if_doi_exists=False`): inserting a record
for a file reference not yet stored appends exactly one record carrying that
file reference, and any second insertion for the same file reference is a
no-op, short-circuited by the file check before the bib string is even parsed
(the second parser and bib string are arbitrary). -/
theorem add_entry_by_string_file_idempotent
    (parse : String → List Entry) (entries : List Entry) (bib : String) (fn : String)
    (_hfn : fn ≠ "") (hnot : fn ∉ files entries)
    (e0 : Entry) (rest : List Entry) (hp : parse bib = e0 :: rest) :
    ∃ s1, add_entry_by_string parse entries bib (some fn) true false = some s1 ∧
      s1.countP (fun e => e.fields.lookup "file" = some fn) = 1 ∧
      ∀ (parse₂ : String → List Entry) (bib₂ : String),
        add_entry_by_string parse₂ s1 bib₂ (some fn) true false = some s1 := by
  have hcontains : (files entries).contains fn = false := by simpa using hnot
  refine ⟨entries ++ [set_file e0 (some fn)], ?_, ?_, ?_⟩
  · unfold add_entry_by_string
    rw [hp]
    simp [Option.any, hcontains, hnot]
  · rw [List.countP_append, List.countP_eq_zero.mpr, Nat.zero_add]
    · simp [set_file, Finmap.lookup_insert]
    · intro e he hpred
      exact absurd (List.mem_filterMap.mpr ⟨e, he, by simpa using hpred⟩) hnot
  · intro parse₂ bib₂
    have hmem : fn ∈ files (entries ++ [set_file e0 (some fn)]) := by
      unfold files
      rw [List.filterMap_append]
      refine List.mem_append_right _ ?_
      simp [set_file, Finmap.lookup_insert]
    unfold add_entry_by_string
    rw [if_pos]
    simpa [Option.any] using hmem

/-- Witness for C8: importing a record for `f.pdf` into an empty store stores
one record for that file, and a repeated import — even with a different parser
and bib string — is a no-op. -/
theorem add_entry_by_string_file_idempotent_witness :
    ∃ s1, add_entry_by_string (fun _ => [⟨"K1", "article", ∅⟩]) [] "@article" (some "f.pdf")
        true false = some s1 ∧
      s1.countP (fun e => e.fields.lookup "file" = some "f.pdf") = 1 ∧
      ∀ (parse₂ : String → List Entry) (bib₂ : String),
        add_entry_by_string parse₂ s1 bib₂ (some "f.pdf") true false = some s1 :=
  add_entry_by_string_file_idempotent (fun _ => [⟨"K1", "article", ∅⟩]) [] "@article"
    "f.pdf" (by decide) (by simp [files]) ⟨"K1", "article", ∅⟩ [] rfl

/-- Claim C10 — only the first parsed entry matters: the result of
`add_entry_by_string` depends only on the head of the parsed entry list (any
further parsed entries are discarded); when nothing is skipped, exactly the
first parsed entry (with the file reference attached) is appended; and the
DOI-duplicate check consults only the first parsed entry. -/
theorem add_entry_by_string_first_only :
    (∀ (parse₁ parse₂ : String → List Entry) (entries : List Entry) (bib : String)
      (fn : Option String) (sf sd : Bool),
      (parse₁ bib).head? = (parse₂ bib).head? →
      add_entry_by_string parse₁ entries bib fn sf sd =
        add_entry_by_string parse₂ entries bib fn sf sd) ∧
    (∀ (parse : String → List Entry) (entries : List Entry) (bib : String)
      (fn : Option String) (e0 : Entry) (rest : List Entry),
      parse bib = e0 :: rest →
      (∀ f, fn = some f → f ∉ files entries) →
      add_entry_by_string parse entries bib fn true false =
        some (entries ++ [set_file e0 fn])) ∧
    (∀ (parse : String → List Entry) (entries : List Entry) (bib : String)
      (fn : Option String) (e0 : Entry) (rest : List Entry) (d : String),
      parse bib = e0 :: rest →
      (∀ f, fn = some f → f ∉ files entries) →
      e0.fields.lookup "doi" = some d → d ∈ dois entries →
      add_entry_by_string parse entries bib fn true true = some entries) := by
  have hskip : ∀ (entries : List Entry) (fn : Option String),
      (∀ f, fn = some f → f ∉ files entries) →
      (true && fn.any fun f => (files entries).contains f) = false := by
    intro entries fn hf
    cases fn with
    | none => rfl
    | some f =>
      have hmem : f ∉ files entries := hf f rfl
      simp [Option.any, hmem]
  refine ⟨?_, ?_, ?_⟩
  · intro parse₁ parse₂ entries bib fn sf sd hhead
    unfold add_entry_by_string
    cases hp1 : parse₁ bib with
    | nil =>
      cases hp2 : parse₂ bib with
      | nil => rfl
      | cons e2 r2 => rw [hp1, hp2] at hhead; cases hhead
    | cons e1 r1 =>
      cases hp2 : parse₂ bib with
      | nil => rw [hp1, hp2] at hhead; cases hhead
      | cons e2 r2 =>
        rw [hp1, hp2] at hhead
        simp only [List.head?_cons, Option.some_inj] at hhead
        rw [hhead]
  · intro parse entries bib fn e0 rest hp hf
    unfold add_entry_by_string
    rw [hskip entries fn hf, if_neg (by simp), hp]
    rfl
  · intro parse entries bib fn e0 rest d hp hf hdoi hd
    unfold add_entry_by_string
    rw [hskip entries fn hf, if_neg (by simp), hp]
    show (if (true && Option.any (fun x => (dois entries).contains x)
        (Finmap.lookup "doi" e0.fields)) = true then some entries
      else some (entries ++ [set_file e0 fn])) = some entries
    rw [hdoi]
    simp [Option.any, hd]

/-- Witness for C10: a parse producing two entries appends only the first
(with the file reference attached); the second parsed entry is discarded. -/
theorem add_entry_by_string_first_only_witness :
    add_entry_by_string (fun _ => [⟨"K1", "article", ∅⟩, ⟨"K2", "misc", ∅⟩]) [] "@article"
        (some "f.pdf") true false =
      some ([] ++ [set_file ⟨"K1", "article", ∅⟩ (some "f.pdf")]) :=
  add_entry_by_string_first_only.2.1 (fun _ => [⟨"K1", "article", ∅⟩, ⟨"K2", "misc", ∅⟩])
    [] "@article" (some "f.pdf") ⟨"K1", "article", ∅⟩ [⟨"K2", "misc", ∅⟩] rfl
    (fun f hf => by simp [files])

/-! Claim C9: the key-to-record index is a pure projection of the entry
sequence. -/

/-- Claim C9 — the index built by `entries_dict` is a pure projection of the
entries list: looking a key up in it returns exactly the last entry of the
current sequence carrying that key; appending an entry (`add_entry`) turns the
index into the index of the extended sequence, i.e. one dict assignment; and
after `replace_entry_by_key` or `remove_entry_by_key` the identity between
the recomputed index and the mutated sequence still holds — the index is never
an independent source of truth. -/
theorem entries_dict_pure_projection :
    (∀ (es : List Entry) (k : String),
      pydict_lookup (entries_dict es) k = es.reverse.find? fun e => e.ID = k) ∧
    (∀ (es : List Entry) (e : Entry),
      entries_dict (add_entry es e) = pydict_insert (entries_dict es) e.ID e) ∧
    (∀ (es : List Entry) (key : String) (x : Entry) (es' : List Entry),
      replace_entry_by_key es key x = some es' →
      ∀ k, pydict_lookup (entries_dict es') k = es'.reverse.find? fun e => e.ID = k) ∧
    (∀ (es : List Entry) (key : String) (es' : List Entry),
      remove_entry_by_key es key = some es' →
      ∀ k, pydict_lookup (entries_dict es') k = es'.reverse.find? fun e => e.ID = k) := by
  refine ⟨pydict_lookup_entries_dict, ?_, ?_, ?_⟩
  · intro es e
    exact entries_dict_append es e
  · intro es key x es' _ k
    exact pydict_lookup_entries_dict es' k
  · intro es key es' _ k
    exact pydict_lookup_entries_dict es' k

/-- Witness for C9: after removing the only entry, the recomputed index of
the resulting sequence is still its projection. -/
theorem entries_dict_pure_projection_witness :
    pydict_lookup (entries_dict ([] : List Entry)) "K1" =
      ([] : List Entry).reverse.find? fun e => e.ID = "K1" :=
  entries_dict_pure_projection.2.2.2 [⟨"K1", "article", ∅⟩] "K1" [] rfl "K1"

end BibBuilder
